import Mathlib

/-!
Verification of the katakana→romaji transliteration engine of
`plugins/organizer_plugin.py` (functions `_to_zen_katakana` and
`_kata_to_romaji`).  Python strings are modelled as `List Char`,
`None` as `Option.none`, and the two romanization dictionaries as
association lists from key strings to value strings.
-/

/-- Association-list model of a Python `dict[str, str]`; `rlookup` models
`dict.get` (first matching key wins; a Python dict has unique keys). -/
abbrev RMap := List (List Char × List Char)

/-- Model of `dict.get(key)`: `none` when the key is absent. -/
def rlookup : RMap → List Char → Option (List Char)
  | [], _ => none
  | (k, v) :: rest, key => if k = key then some v else rlookup rest key

/-- Association-list lookup on single characters (used by the NFKC model). -/
def clookup : List (Char × Char) → Char → Option Char
  | [], _ => none
  | (k, v) :: rest, c => if k = c then some v else clookup rest c

/-- `(Char.ofNat n).toNat = n` whenever `n` is a valid scalar value. -/
theorem toNat_ofNat_of_valid {n : Nat} (h : n.isValidChar) :
    (Char.ofNat n).toNat = n := by
  rw [Char.ofNat, dif_pos h]
  rfl

/-!
### Model of `unicodedata.normalize("NFKC", ·)`

The Python code calls the standard library's NFKC normalization.  We model
it restricted to the kana blocks, which is the part the transliterator's
behaviour depends on: the compatibility decompositions of the halfwidth
katakana block U+FF61–U+FF9F (UnicodeData.txt `<narrow>` mappings, all of
which are a single fullwidth character, with the halfwidth voicing marks
U+FF9E/U+FF9F mapping to the combining marks U+3099/U+309A), followed by
canonical composition of a kana base character with a directly following
combining voiced/semi-voiced sound mark (U+3099/U+309A) into its
precomposed form where one exists.  Characters outside this fragment are
treated as NFKC-stable and pass through unchanged.
-/

/-- Compatibility decompositions of the halfwidth kana block
(U+FF61–U+FF9F), per UnicodeData.txt. -/
def kanaDecompTable : List (Char × Char) :=
  [ (Char.ofNat 0xFF61, Char.ofNat 0x3002), (Char.ofNat 0xFF62, Char.ofNat 0x300C),
    (Char.ofNat 0xFF63, Char.ofNat 0x300D), (Char.ofNat 0xFF64, Char.ofNat 0x3001),
    (Char.ofNat 0xFF65, Char.ofNat 0x30FB), (Char.ofNat 0xFF66, Char.ofNat 0x30F2),
    (Char.ofNat 0xFF67, Char.ofNat 0x30A1), (Char.ofNat 0xFF68, Char.ofNat 0x30A3),
    (Char.ofNat 0xFF69, Char.ofNat 0x30A5), (Char.ofNat 0xFF6A, Char.ofNat 0x30A7),
    (Char.ofNat 0xFF6B, Char.ofNat 0x30A9), (Char.ofNat 0xFF6C, Char.ofNat 0x30E3),
    (Char.ofNat 0xFF6D, Char.ofNat 0x30E5), (Char.ofNat 0xFF6E, Char.ofNat 0x30E7),
    (Char.ofNat 0xFF6F, Char.ofNat 0x30C3), (Char.ofNat 0xFF70, Char.ofNat 0x30FC),
    (Char.ofNat 0xFF71, Char.ofNat 0x30A2), (Char.ofNat 0xFF72, Char.ofNat 0x30A4),
    (Char.ofNat 0xFF73, Char.ofNat 0x30A6), (Char.ofNat 0xFF74, Char.ofNat 0x30A8),
    (Char.ofNat 0xFF75, Char.ofNat 0x30AA), (Char.ofNat 0xFF76, Char.ofNat 0x30AB),
    (Char.ofNat 0xFF77, Char.ofNat 0x30AD), (Char.ofNat 0xFF78, Char.ofNat 0x30AF),
    (Char.ofNat 0xFF79, Char.ofNat 0x30B1), (Char.ofNat 0xFF7A, Char.ofNat 0x30B3),
    (Char.ofNat 0xFF7B, Char.ofNat 0x30B5), (Char.ofNat 0xFF7C, Char.ofNat 0x30B7),
    (Char.ofNat 0xFF7D, Char.ofNat 0x30B9), (Char.ofNat 0xFF7E, Char.ofNat 0x30BB),
    (Char.ofNat 0xFF7F, Char.ofNat 0x30BD), (Char.ofNat 0xFF80, Char.ofNat 0x30BF),
    (Char.ofNat 0xFF81, Char.ofNat 0x30C1), (Char.ofNat 0xFF82, Char.ofNat 0x30C4),
    (Char.ofNat 0xFF83, Char.ofNat 0x30C6), (Char.ofNat 0xFF84, Char.ofNat 0x30C8),
    (Char.ofNat 0xFF85, Char.ofNat 0x30CA), (Char.ofNat 0xFF86, Char.ofNat 0x30CB),
    (Char.ofNat 0xFF87, Char.ofNat 0x30CC), (Char.ofNat 0xFF88, Char.ofNat 0x30CD),
    (Char.ofNat 0xFF89, Char.ofNat 0x30CE), (Char.ofNat 0xFF8A, Char.ofNat 0x30CF),
    (Char.ofNat 0xFF8B, Char.ofNat 0x30D2), (Char.ofNat 0xFF8C, Char.ofNat 0x30D5),
    (Char.ofNat 0xFF8D, Char.ofNat 0x30D8), (Char.ofNat 0xFF8E, Char.ofNat 0x30DB),
    (Char.ofNat 0xFF8F, Char.ofNat 0x30DE), (Char.ofNat 0xFF90, Char.ofNat 0x30DF),
    (Char.ofNat 0xFF91, Char.ofNat 0x30E0), (Char.ofNat 0xFF92, Char.ofNat 0x30E1),
    (Char.ofNat 0xFF93, Char.ofNat 0x30E2), (Char.ofNat 0xFF94, Char.ofNat 0x30E4),
    (Char.ofNat 0xFF95, Char.ofNat 0x30E6), (Char.ofNat 0xFF96, Char.ofNat 0x30E8),
    (Char.ofNat 0xFF97, Char.ofNat 0x30E9), (Char.ofNat 0xFF98, Char.ofNat 0x30EA),
    (Char.ofNat 0xFF99, Char.ofNat 0x30EB), (Char.ofNat 0xFF9A, Char.ofNat 0x30EC),
    (Char.ofNat 0xFF9B, Char.ofNat 0x30ED), (Char.ofNat 0xFF9C, Char.ofNat 0x30EF),
    (Char.ofNat 0xFF9D, Char.ofNat 0x30F3), (Char.ofNat 0xFF9E, Char.ofNat 0x3099),
    (Char.ofNat 0xFF9F, Char.ofNat 0x309A) ]

/-- Canonical composition of a kana base with the combining voiced sound
mark U+3099 (dakuten), per UnicodeData.txt canonical decompositions.
Note there is no precomposed hiragana for わ/ゐ/ゑ/を + U+3099, while the
katakana ヷ/ヸ/ヹ/ヺ (U+30F7–U+30FA) do exist. -/
def dakutenTable : List (Char × Char) :=
  [ (Char.ofNat 0x304B, Char.ofNat 0x304C), (Char.ofNat 0x304D, Char.ofNat 0x304E),
    (Char.ofNat 0x304F, Char.ofNat 0x3050), (Char.ofNat 0x3051, Char.ofNat 0x3052),
    (Char.ofNat 0x3053, Char.ofNat 0x3054), (Char.ofNat 0x3055, Char.ofNat 0x3056),
    (Char.ofNat 0x3057, Char.ofNat 0x3058), (Char.ofNat 0x3059, Char.ofNat 0x305A),
    (Char.ofNat 0x305B, Char.ofNat 0x305C), (Char.ofNat 0x305D, Char.ofNat 0x305E),
    (Char.ofNat 0x305F, Char.ofNat 0x3060), (Char.ofNat 0x3061, Char.ofNat 0x3062),
    (Char.ofNat 0x3064, Char.ofNat 0x3065), (Char.ofNat 0x3066, Char.ofNat 0x3067),
    (Char.ofNat 0x3068, Char.ofNat 0x3069), (Char.ofNat 0x306F, Char.ofNat 0x3070),
    (Char.ofNat 0x3072, Char.ofNat 0x3073), (Char.ofNat 0x3075, Char.ofNat 0x3076),
    (Char.ofNat 0x3078, Char.ofNat 0x3079), (Char.ofNat 0x307B, Char.ofNat 0x307C),
    (Char.ofNat 0x3046, Char.ofNat 0x3094), (Char.ofNat 0x309D, Char.ofNat 0x309E),
    (Char.ofNat 0x30AB, Char.ofNat 0x30AC), (Char.ofNat 0x30AD, Char.ofNat 0x30AE),
    (Char.ofNat 0x30AF, Char.ofNat 0x30B0), (Char.ofNat 0x30B1, Char.ofNat 0x30B2),
    (Char.ofNat 0x30B3, Char.ofNat 0x30B4), (Char.ofNat 0x30B5, Char.ofNat 0x30B6),
    (Char.ofNat 0x30B7, Char.ofNat 0x30B8), (Char.ofNat 0x30B9, Char.ofNat 0x30BA),
    (Char.ofNat 0x30BB, Char.ofNat 0x30BC), (Char.ofNat 0x30BD, Char.ofNat 0x30BE),
    (Char.ofNat 0x30BF, Char.ofNat 0x30C0), (Char.ofNat 0x30C1, Char.ofNat 0x30C2),
    (Char.ofNat 0x30C4, Char.ofNat 0x30C5), (Char.ofNat 0x30C6, Char.ofNat 0x30C7),
    (Char.ofNat 0x30C8, Char.ofNat 0x30C9), (Char.ofNat 0x30CF, Char.ofNat 0x30D0),
    (Char.ofNat 0x30D2, Char.ofNat 0x30D3), (Char.ofNat 0x30D5, Char.ofNat 0x30D6),
    (Char.ofNat 0x30D8, Char.ofNat 0x30D9), (Char.ofNat 0x30DB, Char.ofNat 0x30DC),
    (Char.ofNat 0x30A6, Char.ofNat 0x30F4), (Char.ofNat 0x30EF, Char.ofNat 0x30F7),
    (Char.ofNat 0x30F0, Char.ofNat 0x30F8), (Char.ofNat 0x30F1, Char.ofNat 0x30F9),
    (Char.ofNat 0x30F2, Char.ofNat 0x30FA), (Char.ofNat 0x30FD, Char.ofNat 0x30FE) ]

/-- Canonical composition of a kana base with the combining semi-voiced
sound mark U+309A (handakuten). -/
def handakutenTable : List (Char × Char) :=
  [ (Char.ofNat 0x306F, Char.ofNat 0x3071), (Char.ofNat 0x3072, Char.ofNat 0x3074),
    (Char.ofNat 0x3075, Char.ofNat 0x3077), (Char.ofNat 0x3078, Char.ofNat 0x307A),
    (Char.ofNat 0x307B, Char.ofNat 0x307D), (Char.ofNat 0x30CF, Char.ofNat 0x30D1),
    (Char.ofNat 0x30D2, Char.ofNat 0x30D4), (Char.ofNat 0x30D5, Char.ofNat 0x30D7),
    (Char.ofNat 0x30D8, Char.ofNat 0x30DA), (Char.ofNat 0x30DB, Char.ofNat 0x30DD) ]

/-- Compatibility decomposition of one character (identity outside the
modelled halfwidth kana block). -/
def decompChar (c : Char) : List Char :=
  match clookup kanaDecompTable c with
  | some d => [d]
  | none => [c]

/-- Character-wise compatibility decomposition of a string. -/
def decomposeAll : List Char → List Char
  | [] => []
  | c :: rest => decompChar c ++ decomposeAll rest

/-- Does the pair `(a, b)` canonically compose?  Composition requires the
second character to be a combining voicing mark (U+3099 or U+309A). -/
def composePair (a b : Char) : Option Char :=
  if b = Char.ofNat 0x3099 then clookup dakutenTable a
  else if b = Char.ofNat 0x309A then clookup handakutenTable a
  else none

/-- Left-to-right canonical composition scan: a base that composes with
the directly following voicing mark is replaced by the precomposed
character, which may in turn compose with the next character. -/
def composeAux (a : Char) : List Char → List Char
  | [] => [a]
  | b :: rest =>
    match composePair a b with
    | some c => composeAux c rest
    | none => a :: composeAux b rest

/-- Canonical composition of a string. -/
def canonicalCompose : List Char → List Char
  | [] => []
  | a :: rest => composeAux a rest

/-- The NFKC model: compatibility decomposition then canonical
composition. -/
def nfkc (l : List Char) : List Char :=
  canonicalCompose (decomposeAll l)

/-!
### The source functions

`_to_zen_katakana` and `_kata_to_romaji` from
`plugins/organizer_plugin.py`, with the inner Python `while` loop over the
cursor `i` rendered as structural recursion over the remaining suffix
`s[i:]` of the normalized string, and the fragment list `res` threaded as
an accumulator (in emission order, so that `"".join(res)` is
`acc.flatten`).
-/

/-- The hiragana→katakana code-point shift of `_to_zen_katakana`:
`chr(code + 0x60)` for `0x3041 <= code <= 0x3096`. -/
def shiftChar (c : Char) : Char :=
  if 0x3041 ≤ c.toNat ∧ c.toNat ≤ 0x3096 then Char.ofNat (c.toNat + 0x60) else c

/-- `_to_zen_katakana` on a (non-absent) string, character-list level. -/
def to_zen_katakana_chars (l : List Char) : List Char :=
  (nfkc l).map shiftChar

/-- `_to_zen_katakana`: `None` propagates, otherwise NFKC-normalize and
shift hiragana to katakana. -/
def to_zen_katakana (s : Option String) : Option String :=
  s.map fun t => String.mk (to_zen_katakana_chars t.data)

/-- The inner helper `double_consonant` of `_kata_to_romaji`: empty for an
empty fragment, then the `startswith` chain for `ch`/`sh`/`j`/`ts`,
otherwise the fragment's first character `roma_next[0]`. -/
def double_consonant (roma_next : List Char) : List Char :=
  if roma_next = [] then []
  else if roma_next.take 2 = ['c', 'h'] then ['c']
  else if roma_next.take 2 = ['s', 'h'] then ['s']
  else if roma_next.take 1 = ['j'] then ['j']
  else if roma_next.take 2 = ['t', 's'] then ['t']
  else roma_next.take 1

/-- The inner helper `prolong` of `_kata_to_romaji`: empty for empty
input, else the `endswith` chain over the vowels in source order. -/
def prolong (prev : List Char) : List Char :=
  if prev = [] then []
  else if prev.getLast? = some 'a' then ['a']
  else if prev.getLast? = some 'i' then ['i']
  else if prev.getLast? = some 'u' then ['u']
  else if prev.getLast? = some 'e' then ['e']
  else if prev.getLast? = some 'o' then ['o']
  else []

/-- The guard `is_katakana`: code point in U+30A0–U+30FF, or the
long-vowel mark (redundantly, as in the source). -/
def isKatakana (c : Char) : Bool :=
  (0x30A0 ≤ c.toNat && c.toNat ≤ 0x30FF) || c == 'ー'

/-- Shared lookahead resolution used by the small-tsu and moraic-nasal
branches: the 2-character digraph at `s[i+1:i+3]` when two characters
follow, else the 1-character mono lookup of `s[i+1]` (the empty-string key
when nothing follows), defaulting to the empty string. -/
def resolveNext (d m : RMap) (rest : List Char) : List Char :=
  match (if 2 ≤ rest.length then rlookup d (rest.take 2) else none) with
  | some v => v
  | none => (rlookup m (rest.take 1)).getD []

/-- Fragment(s) appended by the `ch == "ッ"` branch: nothing when no
character follows, otherwise one consonant-doubling fragment. -/
def tsuFrag (d m : RMap) (rest : List Char) : List (List Char) :=
  match rest with
  | [] => []
  | _ :: _ => [double_consonant (resolveNext d m rest)]

/-- Fragment appended for the moraic nasal ン: `n'` when the resolved
romanization of the following character starts with a vowel or `y`,
otherwise plain `n`. -/
def nasalFrag (d m : RMap) (rest : List Char) : List Char :=
  match resolveNext d m rest with
  | c :: _ =>
    if c = 'a' ∨ c = 'i' ∨ c = 'u' ∨ c = 'e' ∨ c = 'o' ∨ c = 'y'
    then ['n', Char.ofNat 39] else ['n']
  | [] => ['n']

/-- Fragment appended by the mono branch: the mono value when truthy
(with the ン special case), else the character itself verbatim
(`mono.get(ch)` absent **or equal to the empty string**, since the source
tests `if roma:`). -/
def monoFrag (d m : RMap) (ch : Char) (rest : List Char) : List Char :=
  match rlookup m [ch] with
  | some v =>
    if v = [] then [ch]
    else if ch = 'ン' then nasalFrag d m rest else v
  | none => [ch]

/-- The scan loop of `_kata_to_romaji` over the normalized string, one
constructor case per loop iteration; `acc` is the fragment list `res`. -/
def romaScan (d m : RMap) : List Char → List (List Char) → List (List Char)
  | [], acc => acc
  | ch :: rest, acc =>
    if !(isKatakana ch) then romaScan d m rest (acc ++ [[ch]])
    else if ch = 'ッ' then romaScan d m rest (acc ++ tsuFrag d m rest)
    else if ch = 'ー' then romaScan d m rest (acc ++ [prolong acc.flatten])
    else
      match rest with
      | c2 :: rest2 =>
        match rlookup d [ch, c2] with
        | some v => romaScan d m rest2 (acc ++ [v])
        | none => romaScan d m (c2 :: rest2) (acc ++ [monoFrag d m ch (c2 :: rest2)])
      | [] => romaScan d m [] (acc ++ [monoFrag d m ch []])

/-- Number of iterations the scan loop performs (same branch structure as
`romaScan`). -/
def romaIters (d m : RMap) : List Char → Nat
  | [] => 0
  | ch :: rest =>
    if !(isKatakana ch) then romaIters d m rest + 1
    else if ch = 'ッ' then romaIters d m rest + 1
    else if ch = 'ー' then romaIters d m rest + 1
    else
      match rest with
      | c2 :: rest2 =>
        match rlookup d [ch, c2] with
        | some _ => romaIters d m rest2 + 1
        | none => romaIters d m (c2 :: rest2) + 1
      | [] => romaIters d m [] + 1

/-- `str.lower` restricted to ASCII (all characters the engine itself
produces are ASCII; characters with no case are unchanged, as in Python). -/
def pyLowerChar (c : Char) : Char :=
  if 0x41 ≤ c.toNat ∧ c.toNat ≤ 0x5A then Char.ofNat (c.toNat + 0x20) else c

/-- `str.upper` on one character, restricted to ASCII. -/
def pyUpperChar (c : Char) : Char :=
  if 0x61 ≤ c.toNat ∧ c.toNat ≤ 0x7A then Char.ofNat (c.toNat - 0x20) else c

/-- `str.capitalize`: uppercase the first character, lowercase the rest. -/
def pyCapitalize : List Char → List Char
  | [] => []
  | c :: cs => pyUpperChar c :: cs.map pyLowerChar

/-- The epilogue of `_kata_to_romaji`:
`"".join(res).replace("-", "").lower().capitalize()`. -/
def postprocess (res : List (List Char)) : List Char :=
  pyCapitalize ((res.flatten.filter fun c => c != '-').map pyLowerChar)

/-- `_kata_to_romaji`: `None` propagates; otherwise normalize, scan, and
post-process. -/
def kata_to_romaji (text : Option String) (d m : RMap) : Option String :=
  text.map fun t =>
    String.mk (postprocess (romaScan d m (to_zen_katakana_chars t.data) []))

/-!
### Specification-side definitions

Written from the sentences of the specification (not from the source), to
be compared with the source functions.
-/

/-- From the spec: emit a single consonant-doubling letter — `c` if the
fragment starts with `ch`, `s` if it starts with `sh`, `j` if it starts
with `j`, `t` if it starts with `ts`, otherwise the fragment's first
character (empty string if the fragment is empty). -/
def geminationLetter (frag : List Char) : List Char :=
  if frag.take 2 = ['c', 'h'] then ['c']
  else if frag.take 2 = ['s', 'h'] then ['s']
  else if frag.take 1 = ['j'] then ['j']
  else if frag.take 2 = ['t', 's'] then ['t']
  else
    match frag with
    | [] => []
    | c :: _ => [c]

/-- From the spec: the resolved romanization of the next one-or-two
characters — 2-character digraph lookup first, falling back to the
1-character mono lookup, empty string when both are absent. -/
def resolvedRomanization (d m : RMap) (next : List Char) : List Char :=
  match next with
  | a :: _ :: _ =>
    match rlookup d (next.take 2) with
    | some v => v
    | none => (rlookup m [a]).getD []
  | [a] => (rlookup m [a]).getD []
  | [] => []

/-- From the spec: the vowels `a`/`i`/`u`/`e`/`o`. -/
def isVowel (c : Char) : Bool :=
  c == 'a' || c == 'i' || c == 'u' || c == 'e' || c == 'o'

/-- From the spec: first character is a vowel or `y`. -/
def headVowelY : List Char → Bool
  | c :: _ => isVowel c || c == 'y'
  | [] => false

/-- No adjacent canonically composable pair anywhere in the string. -/
def composableFree : List Char → Bool
  | a :: b :: rest => !(composePair a b).isSome && composableFree (b :: rest)
  | _ => true

/-- ASCII uppercase (the case notion relevant to the engine's output). -/
def isUpperA (c : Char) : Bool :=
  0x41 ≤ c.toNat && c.toNat ≤ 0x5A

/-- ASCII lowercase. -/
def isLowerA (c : Char) : Bool :=
  0x61 ≤ c.toNat && c.toNat ≤ 0x7A

/-- ASCII letter. -/
def isAlphaA (c : Char) : Bool :=
  isUpperA c || isLowerA c

/-!
### Step lemmas for the scan loop

One lemma per branch of the `while` loop, for arbitrary remaining input
and accumulated fragments.
-/

theorem romaScan_nil (d m : RMap) (acc : List (List Char)) :
    romaScan d m [] acc = acc := rfl

theorem romaScan_not_katakana (d m : RMap) {ch : Char} (rest : List Char)
    (acc : List (List Char)) (h : isKatakana ch = false) :
    romaScan d m (ch :: rest) acc = romaScan d m rest (acc ++ [[ch]]) := by
  rw [romaScan.eq_def]
  simp [h]

theorem romaScan_tsu (d m : RMap) (rest : List Char) (acc : List (List Char)) :
    romaScan d m ('ッ' :: rest) acc = romaScan d m rest (acc ++ tsuFrag d m rest) := by
  rw [romaScan.eq_def]
  have hk : isKatakana 'ッ' = true := rfl
  simp [hk]

theorem romaScan_chouon (d m : RMap) (rest : List Char) (acc : List (List Char)) :
    romaScan d m ('ー' :: rest) acc =
      romaScan d m rest (acc ++ [prolong acc.flatten]) := by
  rw [romaScan.eq_def]
  have hk : isKatakana 'ー' = true := rfl
  have hne : ('ー' : Char) ≠ 'ッ' := by decide
  simp [hk, hne]

theorem romaScan_digraph (d m : RMap) {ch c2 : Char} (rest2 : List Char)
    (acc : List (List Char)) {v : List Char}
    (h1 : isKatakana ch = true) (h2 : ch ≠ 'ッ') (h3 : ch ≠ 'ー')
    (h4 : rlookup d [ch, c2] = some v) :
    romaScan d m (ch :: c2 :: rest2) acc = romaScan d m rest2 (acc ++ [v]) := by
  rw [romaScan.eq_def]
  simp [h1, h2, h3, h4]

theorem romaScan_mono_nil (d m : RMap) {ch : Char} (acc : List (List Char))
    (h1 : isKatakana ch = true) (h2 : ch ≠ 'ッ') (h3 : ch ≠ 'ー') :
    romaScan d m [ch] acc = acc ++ [monoFrag d m ch []] := by
  rw [romaScan.eq_def]
  simp [h1, h2, h3, romaScan]

theorem romaScan_mono_cons (d m : RMap) {ch c2 : Char} (rest2 : List Char)
    (acc : List (List Char))
    (h1 : isKatakana ch = true) (h2 : ch ≠ 'ッ') (h3 : ch ≠ 'ー')
    (h4 : rlookup d [ch, c2] = none) :
    romaScan d m (ch :: c2 :: rest2) acc =
      romaScan d m (c2 :: rest2) (acc ++ [monoFrag d m ch (c2 :: rest2)]) := by
  rw [romaScan.eq_def]
  simp [h1, h2, h3, h4]

/-!
### Bridging lemmas between source helpers and spec-side definitions
-/

theorem double_consonant_eq_geminationLetter (frag : List Char) :
    double_consonant frag = geminationLetter frag := by
  cases frag with
  | nil => rfl
  | cons c cs => rfl

theorem resolveNext_eq_resolvedRomanization (d m : RMap) (c1 : Char)
    (rtail : List Char) :
    resolveNext d m (c1 :: rtail) = resolvedRomanization d m (c1 :: rtail) := by
  cases rtail with
  | nil => rfl
  | cons c2 r2 =>
    have h2 : 2 ≤ (c1 :: c2 :: r2).length := by simp
    simp only [resolveNext, resolvedRomanization, if_pos h2]
    rfl

theorem prolong_of_vowel {out : List Char} {c : Char}
    (h : out.getLast? = some c) (hv : isVowel c = true) : prolong out = [c] := by
  have hne : out ≠ [] := by
    intro he
    rw [he] at h
    simp at h
  have hv5 : c = 'a' ∨ c = 'i' ∨ c = 'u' ∨ c = 'e' ∨ c = 'o' := by
    simp [isVowel] at hv
    tauto
  rcases hv5 with h5 | h5 | h5 | h5 | h5 <;> subst h5 <;> simp [prolong, h, hne]

theorem prolong_of_no_vowel {out : List Char}
    (h : ∀ c, out.getLast? = some c → isVowel c = false) : prolong out = [] := by
  cases hOut : out.getLast? with
  | none =>
    have : out = [] := by
      cases out with
      | nil => rfl
      | cons x xs => simp at hOut
    simp [this, prolong]
  | some c =>
    have hv := h c hOut
    have hva : c ≠ 'a' := by intro he; subst he; simp [isVowel] at hv
    have hvi : c ≠ 'i' := by intro he; subst he; simp [isVowel] at hv
    have hvu : c ≠ 'u' := by intro he; subst he; simp [isVowel] at hv
    have hve : c ≠ 'e' := by intro he; subst he; simp [isVowel] at hv
    have hvo : c ≠ 'o' := by intro he; subst he; simp [isVowel] at hv
    simp [prolong, hOut, hva, hvi, hvu, hve, hvo]

/-!
### The claims
-/

/-- C1: Small-tsu gemination — at a cursor on ッ with a following
character, the scan emits exactly the consonant-doubling letter of the
resolved romanization of the lookahead (2-character digraph lookup first,
1-character mono fallback, empty default) and continues with the lookahead
unconsumed; a trailing ッ emits nothing; and transliterating "ッカ" with
`mono = {"カ": "ka"}` gives "Kka". -/
theorem claim1_small_tsu_gemination :
    (∀ (d m : RMap) (c1 : Char) (rtail : List Char) (acc : List (List Char)),
      romaScan d m ('ッ' :: c1 :: rtail) acc =
        romaScan d m (c1 :: rtail)
          (acc ++ [geminationLetter (resolvedRomanization d m (c1 :: rtail))]))
    ∧ (∀ (d m : RMap) (acc : List (List Char)), romaScan d m ['ッ'] acc = acc)
    ∧ kata_to_romaji (some "ッカ") [] [("カ".data, "ka".data)] = some "Kka" := by
  refine ⟨?_, ?_, by decide⟩
  · intro d m c1 rtail acc
    rw [romaScan_tsu]
    rw [show tsuFrag d m (c1 :: rtail) =
          [double_consonant (resolveNext d m (c1 :: rtail))] from rfl,
        double_consonant_eq_geminationLetter, resolveNext_eq_resolvedRomanization]
  · intro d m acc
    rw [romaScan_tsu]
    simp [tsuFrag, romaScan]

/-- C3: Long-vowel lookback — at a cursor on ー the scan appends
`prolong` of the concatenation of all fragments emitted so far and
advances by one; `prolong` yields the trailing vowel of that
concatenation when there is one and nothing otherwise; and
transliterating "カー" with `mono = {"カ": "ka"}` gives "Kaa". -/
theorem claim3_long_vowel_lookback :
    (∀ (d m : RMap) (rest : List Char) (acc : List (List Char)),
      romaScan d m ('ー' :: rest) acc =
        romaScan d m rest (acc ++ [prolong acc.flatten]))
    ∧ (∀ (out : List Char) (c : Char), out.getLast? = some c → isVowel c = true →
        prolong out = [c])
    ∧ (∀ out : List Char, (∀ c, out.getLast? = some c → isVowel c = false) →
        prolong out = [])
    ∧ kata_to_romaji (some "カー") [] [("カ".data, "ka".data)] = some "Kaa" := by
  refine ⟨?_, ?_, ?_, by decide⟩
  · intro d m rest acc
    exact romaScan_chouon d m rest acc
  · intro out c h hv
    exact prolong_of_vowel h hv
  · intro out h
    exact prolong_of_no_vowel h

/-- Witness for C3 at concrete inputs: the output suffix "ka" prolongs to
"a", while "k" prolongs to nothing. -/
theorem claim3_witness : prolong ['k', 'a'] = ['a'] ∧ prolong ['k'] = [] := by
  constructor
  · exact claim3_long_vowel_lookback.2.1 ['k', 'a'] 'a' rfl rfl
  · refine claim3_long_vowel_lookback.2.2.1 ['k'] ?_
    intro c h
    have h' : some 'k' = some c := h
    cases h'
    rfl

/-- C5: Digraph priority — at a katakana cursor character other than
ッ and ー, a successful 2-character digraph lookup emits the digraph value
and advances the cursor by 2, independently of `mono`; transliterating
"キャ" with `digraphs = {"キャ": "kya"}` gives "Kya" and not "Kiya". -/
theorem claim5_digraph_priority :
    (∀ (d m : RMap) (ch c2 : Char) (rest2 : List Char) (acc : List (List Char))
      (v : List Char),
      isKatakana ch = true → ch ≠ 'ッ' → ch ≠ 'ー' → rlookup d [ch, c2] = some v →
      romaScan d m (ch :: c2 :: rest2) acc = romaScan d m rest2 (acc ++ [v]))
    ∧ kata_to_romaji (some "キャ") [("キャ".data, "kya".data)]
        [("キ".data, "ki".data), ("ャ".data, "ya".data)] = some "Kya"
    ∧ kata_to_romaji (some "キャ") [("キャ".data, "kya".data)]
        [("キ".data, "ki".data), ("ャ".data, "ya".data)] ≠ some "Kiya" := by
  refine ⟨?_, by decide, by decide⟩
  intro d m ch c2 rest2 acc v h1 h2 h3 h4
  exact romaScan_digraph d m rest2 acc h1 h2 h3 h4

/-- Witness for C5: the digraph step at "キャ" with the concrete maps of
the claim. -/
theorem claim5_witness :
    romaScan [("キャ".data, "kya".data)] [] ("キャ".data) [] = [['k', 'y', 'a']] := by
  have h := claim5_digraph_priority.1 [("キャ".data, "kya".data)] [] 'キ' 'ャ' [] []
    ("kya".data) (by decide) (by decide) (by decide) (by decide)
  exact h.trans (by decide)

/-- C9: Absence propagation — `None` input yields `None` output for both
the transliterator and the normalizer, for every pair of maps. -/
theorem claim9_absence_propagation :
    (∀ d m : RMap, kata_to_romaji none d m = none) ∧ to_zen_katakana none = none :=
  ⟨fun _ _ => rfl, rfl⟩

theorem nasalFrag_eq_headVowelY (d m : RMap) (rest : List Char) :
    nasalFrag d m rest =
      if headVowelY (resolveNext d m rest) = true
      then ['n', Char.ofNat 39] else ['n'] := by
  unfold nasalFrag
  cases hR : resolveNext d m rest with
  | nil => simp [headVowelY]
  | cons c cs =>
    by_cases hc : c = 'a' ∨ c = 'i' ∨ c = 'u' ∨ c = 'e' ∨ c = 'o' ∨ c = 'y'
    · have hh : headVowelY (c :: cs) = true := by
        simp [headVowelY, isVowel]
        tauto
      simp [hc, hh]
    · have hh : headVowelY (c :: cs) = false := by
        simp [headVowelY, isVowel]
        push_neg at hc
        tauto
      simp [hc, hh]

/-- C2 fails as stated: with `mono = {"ン": ""}` the character ン **is** a
key of `mono`, yet the source's truthiness test `if roma:` rejects the
empty value and the scan falls through to verbatim passthrough, so
transliterating "ン" yields "ン", not the "N" the claim requires. -/
theorem claim2_counterexample :
    kata_to_romaji (some "ン") [] [("ン".data, [])] = some "ン"
    ∧ kata_to_romaji (some "ン") [] [("ン".data, [])] ≠ some "N" := by
  constructor
  · decide
  · decide

/-- C2 amended: when ン maps in `mono` to a **non-empty** value and no
2-character digraph matches at the cursor, the scan emits `n'` exactly
when the resolved romanization of the lookahead (2-character digraph
lookup when two characters follow, else the mono lookup of the next
character — of the empty-string key when none follows — with empty
default) starts with a vowel or `y`, and plain `n` otherwise; "ンア" with
`mono = {"ン": "n", "ア": "a"}` gives "N'a" and "ン" alone gives "N". -/
theorem claim2_moraic_nasal_amended :
    (∀ (d m : RMap) (rest : List Char) (acc : List (List Char)) (v : List Char),
      rlookup m ['ン'] = some v → v ≠ [] →
      (∀ c2 rest2, rest = c2 :: rest2 → rlookup d ['ン', c2] = none) →
      romaScan d m ('ン' :: rest) acc =
        romaScan d m rest
          (acc ++ [if headVowelY (resolveNext d m rest) = true
                   then ['n', Char.ofNat 39] else ['n']]))
    ∧ kata_to_romaji (some "ンア") [] [("ン".data, "n".data), ("ア".data, "a".data)]
        = some (String.mk ['N', Char.ofNat 39, 'a'])
    ∧ kata_to_romaji (some "ン") [] [("ン".data, "n".data)] = some "N" := by
  refine ⟨?_, by decide, by decide⟩
  intro d m rest acc v hm hv hd
  have h1 : isKatakana 'ン' = true := rfl
  have h2 : ('ン' : Char) ≠ 'ッ' := by decide
  have h3 : ('ン' : Char) ≠ 'ー' := by decide
  have hmono : monoFrag d m 'ン' rest = nasalFrag d m rest := by
    simp [monoFrag, hm, hv]
  cases rest with
  | nil =>
    rw [romaScan_mono_nil d m acc h1 h2 h3, romaScan_nil, hmono,
        nasalFrag_eq_headVowelY]
  | cons c2 rest2 =>
    rw [romaScan_mono_cons d m rest2 acc h1 h2 h3 (hd c2 rest2 rfl), hmono,
        nasalFrag_eq_headVowelY]

/-- Witness for C2 (amended) at the concrete map `{"ン": "n"}` with no
following character: the step emits plain `n`. -/
theorem claim2_witness :
    romaScan [] [("ン".data, "n".data)] ['ン'] [] = [['n']] := by
  have h := claim2_moraic_nasal_amended.1 [] [("ン".data, "n".data)] [] [] ("n".data)
    (by decide) (by decide) (fun c2 rest2 hx => by cases hx)
  exact h.trans (by decide)

/-- C4 fails as stated: in "カッー" with `mono = {"カ": "ka"}` the fragment
emitted immediately before ー is the empty string (the ッ resolved to
nothing), yet the long-vowel rule — which looks at the concatenation of
**all** fragments, not the last one — still finds the trailing vowel of
the earlier "ka" and emits "a": the fragments are `["ka", "", "a"]` and
the result is "Kaa", not the "Ka" the claim requires. -/
theorem claim4_counterexample :
    romaScan [] [("カ".data, "ka".data)] ("カッー".data) [] = [['k', 'a'], [], ['a']]
    ∧ kata_to_romaji (some "カッー") [] [("カ".data, "ka".data)] = some "Kaa" := by
  constructor
  · decide
  · decide

/-- C4 amended: the long-vowel rule emits nothing exactly when the
concatenation of **all** fragments emitted so far (not merely the
immediately preceding fragment) has no trailing vowel; an empty preceding
fragment does not prevent an earlier fragment's vowel from being
repeated. -/
theorem claim4_empty_fragment_amended :
    ∀ (d m : RMap) (rest : List Char) (acc : List (List Char)),
      (∀ c, acc.flatten.getLast? = some c → isVowel c = false) →
      romaScan d m ('ー' :: rest) acc = romaScan d m rest (acc ++ [[]]) := by
  intro d m rest acc h
  rw [romaScan_chouon, prolong_of_no_vowel h]

/-- Witness for C4 (amended): after a single empty fragment, ー emits
nothing. -/
theorem claim4_witness :
    romaScan [] [] ['ー'] [[]] = [[], []] := by
  have h := claim4_empty_fragment_amended [] [] [] [[]] (fun c hc => by simp at hc)
  exact h.trans (by decide)

theorem pyUpperChar_not_lower (x : Char) : isLowerA (pyUpperChar x) = false := by
  unfold pyUpperChar
  split
  · rename_i h
    have hval : (x.toNat - 0x20).isValidChar := Or.inl (by omega)
    simp [isLowerA, toNat_ofNat_of_valid hval]
    omega
  · rename_i h
    simp [isLowerA]
    omega

theorem pyUpperChar_upper_iff_alpha (x : Char) :
    isUpperA (pyUpperChar x) = isAlphaA (pyUpperChar x) := by
  unfold isAlphaA
  rw [pyUpperChar_not_lower]
  simp

theorem pyLowerChar_not_upper (x : Char) : isUpperA (pyLowerChar x) = false := by
  unfold pyLowerChar
  split
  · rename_i h
    have hval : (x.toNat + 0x20).isValidChar := Or.inl (by omega)
    simp [isUpperA, toNat_ofNat_of_valid hval]
    omega
  · rename_i h
    simp [isUpperA]
    omega

/-- C6 fails as stated: the non-empty input "1" produces the non-empty
output "1", whose first character is not uppercase — `str.capitalize`
leaves caseless characters unchanged. -/
theorem claim6_counterexample :
    kata_to_romaji (some "1") [] [] = some "1" ∧ isUpperA '1' = false := by
  constructor
  · decide
  · decide

/-- C6 amended: every non-empty transliteration result has a first
character that is never lowercase — uppercase exactly when it is an ASCII
letter — and no character after the first is uppercase; the result of
`_kata_to_romaji` is exactly the post-processing of the scan output. -/
theorem claim6_capitalization_amended :
    (∀ (res : List (List Char)) (c : Char) (cs : List Char),
      postprocess res = c :: cs →
      isLowerA c = false ∧ isUpperA c = isAlphaA c ∧ ∀ x ∈ cs, isUpperA x = false)
    ∧ (∀ (d m : RMap) (t : String),
      kata_to_romaji (some t) d m =
        some (String.mk (postprocess (romaScan d m (to_zen_katakana_chars t.data) [])))) := by
  constructor
  · intro res c cs h
    unfold postprocess at h
    cases hF : List.filter (fun c => c != '-') res.flatten with
    | nil =>
      rw [hF] at h
      cases h
    | cons y ys =>
      rw [hF] at h
      have hc : c = pyUpperChar (pyLowerChar y) := by
        have := h
        simp [pyCapitalize] at this
        exact this.1.symm
      have hcs : cs = ys.map (fun z => pyLowerChar (pyLowerChar z)) := by
        have := h
        simp [pyCapitalize] at this
        exact this.2.symm
      refine ⟨?_, ?_, ?_⟩
      · rw [hc]; exact pyUpperChar_not_lower _
      · rw [hc]; exact pyUpperChar_upper_iff_alpha _
      · intro x hx
        rw [hcs] at hx
        rcases List.mem_map.mp hx with ⟨z, _, hz⟩
        rw [← hz]
        exact pyLowerChar_not_upper _
  · intro d m t
    rfl

/-- Witness for C6 (amended) on the concrete scan output `["ka"]`, whose
post-processing is "Ka". -/
theorem claim6_witness :
    isLowerA 'K' = false ∧ isUpperA 'K' = isAlphaA 'K'
    ∧ ∀ x ∈ ['a'], isUpperA x = false :=
  claim6_capitalization_amended.1 [['k', 'a']] 'K' ['a'] (by decide)

/-- C7 fails as stated for the specially handled ッ and ー: both are
katakana-block characters and keys of neither map, yet a lone ッ or ー
transliterates to the empty string — the character does not appear in the
output. -/
theorem claim7_counterexample :
    kata_to_romaji (some "ッ") [] [] = some ""
    ∧ kata_to_romaji (some "ー") [] [] = some "" := by
  constructor
  · decide
  · decide

/-- C7 amended: for every non-absent input and any maps the transliterator
returns a string (total, never an error); and a katakana-range character
**other than the specially handled ッ and ー** that has no mono entry and
no matching digraph is emitted verbatim by the scan (appearing case-folded
in the final output). -/
theorem claim7_totality_passthrough_amended :
    (∀ (d m : RMap) (t : String), (kata_to_romaji (some t) d m).isSome = true)
    ∧ (∀ (d m : RMap) (ch : Char) (rest : List Char) (acc : List (List Char)),
      isKatakana ch = true → ch ≠ 'ッ' → ch ≠ 'ー' → rlookup m [ch] = none →
      (∀ c2 rest2, rest = c2 :: rest2 → rlookup d [ch, c2] = none) →
      romaScan d m (ch :: rest) acc = romaScan d m rest (acc ++ [[ch]])) := by
  constructor
  · intro d m t
    rfl
  · intro d m ch rest acc h1 h2 h3 hm hd
    have hmono : ∀ r, monoFrag d m ch r = [ch] := by
      intro r
      simp [monoFrag, hm]
    cases rest with
    | nil =>
      rw [romaScan_mono_nil d m acc h1 h2 h3, romaScan_nil, hmono]
    | cons c2 rest2 =>
      rw [romaScan_mono_cons d m rest2 acc h1 h2 h3 (hd c2 rest2 rfl), hmono]

/-- Witness for C7 (amended): the unmapped katakana カ passes through the
scan verbatim. -/
theorem claim7_witness : romaScan [] [] ['カ'] [] = [['カ']] := by
  have h := claim7_totality_passthrough_amended.2 [] [] 'カ' [] []
    (by decide) (by decide) (by decide) rfl (fun c2 rest2 hx => by cases hx)
  exact h.trans (by decide)

theorem romaIters_not_katakana (d m : RMap) {ch : Char} (rest : List Char)
    (h : isKatakana ch = false) :
    romaIters d m (ch :: rest) = romaIters d m rest + 1 := by
  rw [romaIters.eq_def]
  simp [h]

theorem romaIters_tsu (d m : RMap) (rest : List Char) :
    romaIters d m ('ッ' :: rest) = romaIters d m rest + 1 := by
  rw [romaIters.eq_def]
  have hk : isKatakana 'ッ' = true := rfl
  simp [hk]

theorem romaIters_chouon (d m : RMap) (rest : List Char) :
    romaIters d m ('ー' :: rest) = romaIters d m rest + 1 := by
  rw [romaIters.eq_def]
  have hk : isKatakana 'ー' = true := rfl
  have hne : ('ー' : Char) ≠ 'ッ' := by decide
  simp [hk, hne]

theorem romaIters_digraph (d m : RMap) {ch c2 : Char} (rest2 : List Char)
    {v : List Char}
    (h1 : isKatakana ch = true) (h2 : ch ≠ 'ッ') (h3 : ch ≠ 'ー')
    (h4 : rlookup d [ch, c2] = some v) :
    romaIters d m (ch :: c2 :: rest2) = romaIters d m rest2 + 1 := by
  rw [romaIters.eq_def]
  simp [h1, h2, h3, h4]

theorem romaIters_mono_nil (d m : RMap) {ch : Char}
    (h1 : isKatakana ch = true) (h2 : ch ≠ 'ッ') (h3 : ch ≠ 'ー') :
    romaIters d m [ch] = 1 := by
  rw [romaIters.eq_def]
  simp [h1, h2, h3, romaIters]

theorem romaIters_mono_cons (d m : RMap) {ch c2 : Char} (rest2 : List Char)
    (h1 : isKatakana ch = true) (h2 : ch ≠ 'ッ') (h3 : ch ≠ 'ー')
    (h4 : rlookup d [ch, c2] = none) :
    romaIters d m (ch :: c2 :: rest2) = romaIters d m (c2 :: rest2) + 1 := by
  rw [romaIters.eq_def]
  simp [h1, h2, h3, h4]

theorem tsuFrag_length_le (d m : RMap) (rest : List Char) :
    (tsuFrag d m rest).length ≤ 1 := by
  cases rest <;> simp [tsuFrag]

theorem romaIters_and_romaScan_bounds (d m : RMap) :
    ∀ (n : Nat) (s : List Char), s.length ≤ n →
      romaIters d m s ≤ s.length
      ∧ ∀ acc : List (List Char),
        (romaScan d m s acc).length ≤ acc.length + romaIters d m s := by
  intro n
  induction n with
  | zero =>
    intro s hs
    have hnil : s = [] := by
      cases s with
      | nil => rfl
      | cons ch rest => simp at hs
    subst hnil
    exact ⟨Nat.le_refl 0, fun acc => by simp [romaScan, romaIters]⟩
  | succ n ih =>
    intro s hs
    cases s with
    | nil => exact ⟨Nat.le_refl 0, fun acc => by simp [romaScan, romaIters]⟩
    | cons ch rest =>
      have hrest : rest.length ≤ n := by
        simp at hs
        omega
      by_cases hk : isKatakana ch = true
      · by_cases ht : ch = 'ッ'
        · subst ht
          obtain ⟨ih1, ih2⟩ := ih rest hrest
          refine ⟨?_, ?_⟩
          · rw [romaIters_tsu]
            simp
            omega
          · intro acc
            rw [romaIters_tsu, romaScan_tsu]
            have := ih2 (acc ++ tsuFrag d m rest)
            have hlen := tsuFrag_length_le d m rest
            simp at this ⊢
            omega
        · by_cases hc : ch = 'ー'
          · subst hc
            obtain ⟨ih1, ih2⟩ := ih rest hrest
            refine ⟨?_, ?_⟩
            · rw [romaIters_chouon]
              simp
              omega
            · intro acc
              rw [romaIters_chouon, romaScan_chouon]
              have := ih2 (acc ++ [prolong acc.flatten])
              simp at this ⊢
              omega
          · cases rest with
            | nil =>
              refine ⟨?_, ?_⟩
              · rw [romaIters_mono_nil d m hk ht hc]
                simp
              · intro acc
                rw [romaIters_mono_nil d m hk ht hc,
                    romaScan_mono_nil d m acc hk ht hc]
                simp
            | cons c2 rest2 =>
              cases hlook : rlookup d [ch, c2] with
              | some v =>
                have hr2 : rest2.length ≤ n := by
                  simp at hrest
                  omega
                obtain ⟨ih1, ih2⟩ := ih rest2 hr2
                refine ⟨?_, ?_⟩
                · rw [romaIters_digraph d m rest2 hk ht hc hlook]
                  simp
                  omega
                · intro acc
                  rw [romaIters_digraph d m rest2 hk ht hc hlook,
                      romaScan_digraph d m rest2 acc hk ht hc hlook]
                  have := ih2 (acc ++ [v])
                  simp at this ⊢
                  omega
              | none =>
                obtain ⟨ih1, ih2⟩ := ih (c2 :: rest2) hrest
                refine ⟨?_, ?_⟩
                · rw [romaIters_mono_cons d m rest2 hk ht hc hlook]
                  simp at ih1 ⊢
                  omega
                · intro acc
                  rw [romaIters_mono_cons d m rest2 hk ht hc hlook,
                      romaScan_mono_cons d m rest2 acc hk ht hc hlook]
                  have := ih2 (acc ++ [monoFrag d m ch (c2 :: rest2)])
                  simp at this ⊢
                  omega
      · have hk' : isKatakana ch = false := by
          simpa using hk
        obtain ⟨ih1, ih2⟩ := ih rest hrest
        refine ⟨?_, ?_⟩
        · rw [romaIters_not_katakana d m rest hk']
          simp
          omega
        · intro acc
          rw [romaIters_not_katakana d m rest hk',
              romaScan_not_katakana d m rest acc hk']
          have := ih2 (acc ++ [[ch]])
          simp at this ⊢
          omega

/-- C10: Termination of the scan — the loop performs at most as many
iterations as the (normalized) input has characters, a digraph match
advances the cursor by 2 in a single iteration, and the scan adds at most
one fragment per iteration. -/
theorem claim10_scan_terminates :
    (∀ (d m : RMap) (s : List Char), romaIters d m s ≤ s.length)
    ∧ (∀ (d m : RMap) (ch c2 : Char) (rest2 : List Char) (v : List Char),
      isKatakana ch = true → ch ≠ 'ッ' → ch ≠ 'ー' → rlookup d [ch, c2] = some v →
      romaIters d m (ch :: c2 :: rest2) = romaIters d m rest2 + 1)
    ∧ (∀ (d m : RMap) (s : List Char) (acc : List (List Char)),
      (romaScan d m s acc).length ≤ acc.length + romaIters d m s) := by
  refine ⟨?_, ?_, ?_⟩
  · intro d m s
    exact (romaIters_and_romaScan_bounds d m s.length s (Nat.le_refl _)).1
  · intro d m ch c2 rest2 v h1 h2 h3 h4
    exact romaIters_digraph d m rest2 h1 h2 h3 h4
  · intro d m s acc
    exact (romaIters_and_romaScan_bounds d m s.length s (Nat.le_refl _)).2 acc

/-- Witness for C10: on the two-character input "キャ" with a matching
digraph the loop runs exactly one iteration. -/
theorem claim10_witness :
    romaIters [("キャ".data, "kya".data)] [] ("キャ".data) = 1 := by
  have h := claim10_scan_terminates.2.1 [("キャ".data, "kya".data)] [] 'キ' 'ャ' []
    ("kya".data) (by decide) (by decide) (by decide) (by decide)
  exact h.trans (by decide)

/-!
### Stability lemmas for the normalization model
-/

/-- A character that the decomposition step leaves alone. -/
def decompStable (c : Char) : Prop := clookup kanaDecompTable c = none

theorem clookup_mem {T : List (Char × Char)} {k v : Char}
    (h : clookup T k = some v) : (k, v) ∈ T := by
  induction T with
  | nil => cases h
  | cons p rest ih =>
    obtain ⟨a, b⟩ := p
    by_cases ha : a = k
    · subst ha
      simp [clookup] at h
      subst h
      exact List.mem_cons_self _ _
    · simp [clookup, ha] at h
      exact List.mem_cons_of_mem _ (ih h)

theorem decompStable_of_lt {c : Char} (h : c.toNat < 0xFF61) : decompStable c := by
  cases hl : clookup kanaDecompTable c with
  | none => exact hl
  | some v =>
    have hmem := clookup_mem hl
    have hkeys : ∀ p ∈ kanaDecompTable, 0xFF61 ≤ p.1.toNat := by decide
    have := hkeys _ hmem
    simp at this
    omega

theorem decompTable_values_lt : ∀ p ∈ kanaDecompTable, p.2.toNat < 0xFF61 := by
  decide

theorem dakutenTable_values_lt : ∀ p ∈ dakutenTable, p.2.toNat < 0xFF61 := by
  decide

theorem handakutenTable_values_lt : ∀ p ∈ handakutenTable, p.2.toNat < 0xFF61 := by
  decide

theorem decompStable_of_composePair {a b c : Char} (h : composePair a b = some c) :
    decompStable c := by
  unfold composePair at h
  split at h
  · exact decompStable_of_lt (by simpa using dakutenTable_values_lt _ (clookup_mem h))
  · split at h
    · exact decompStable_of_lt
        (by simpa using handakutenTable_values_lt _ (clookup_mem h))
    · cases h

theorem decomposeAll_stable (l : List Char) :
    ∀ c ∈ decomposeAll l, decompStable c := by
  induction l with
  | nil => intro c hc; cases hc
  | cons a rest ih =>
    intro c hc
    rw [decomposeAll] at hc
    rcases List.mem_append.mp hc with hc | hc
    · unfold decompChar at hc
      cases hl : clookup kanaDecompTable a with
      | none =>
        rw [hl] at hc
        simp at hc
        subst hc
        exact hl
      | some v =>
        rw [hl] at hc
        simp at hc
        subst hc
        exact decompStable_of_lt
          (by simpa using decompTable_values_lt _ (clookup_mem hl))
    · exact ih c hc

theorem composeAux_stable {a : Char} {l : List Char}
    (ha : decompStable a) (hl : ∀ c ∈ l, decompStable c) :
    ∀ c ∈ composeAux a l, decompStable c := by
  induction l generalizing a with
  | nil =>
    intro c hc
    rw [composeAux] at hc
    simp at hc
    subst hc
    exact ha
  | cons b rest ih =>
    intro c hc
    rw [composeAux] at hc
    cases hp : composePair a b with
    | some e =>
      rw [hp] at hc
      exact ih (decompStable_of_composePair hp)
        (fun x hx => hl x (List.mem_cons_of_mem _ hx)) c hc
    | none =>
      rw [hp] at hc
      rcases List.mem_cons.mp hc with hc | hc
      · subst hc; exact ha
      · exact ih (hl b (List.mem_cons_self _ _))
          (fun x hx => hl x (List.mem_cons_of_mem _ hx)) c hc

theorem canonicalCompose_stable {l : List Char}
    (hl : ∀ c ∈ l, decompStable c) : ∀ c ∈ canonicalCompose l, decompStable c := by
  cases l with
  | nil => intro c hc; cases hc
  | cons a rest =>
    exact composeAux_stable (hl a (List.mem_cons_self _ _))
      (fun x hx => hl x (List.mem_cons_of_mem _ hx))

theorem nfkc_stable (l : List Char) : ∀ c ∈ nfkc l, decompStable c :=
  canonicalCompose_stable (decomposeAll_stable l)

theorem shiftChar_stable {c : Char} (h : decompStable c) :
    decompStable (shiftChar c) := by
  unfold shiftChar
  split
  · rename_i hr
    have hval : (c.toNat + 0x60).isValidChar := Or.inl (by omega)
    exact decompStable_of_lt (by rw [toNat_ofNat_of_valid hval]; omega)
  · exact h

theorem decomposeAll_of_stable {l : List Char}
    (h : ∀ c ∈ l, decompStable c) : decomposeAll l = l := by
  induction l with
  | nil => rfl
  | cons a rest ih =>
    rw [decomposeAll]
    have ha : decompStable a := h a (List.mem_cons_self _ _)
    unfold decompChar
    rw [ha]
    rw [ih (fun x hx => h x (List.mem_cons_of_mem _ hx))]
    rfl

theorem canonicalCompose_of_free {l : List Char}
    (h : composableFree l = true) : canonicalCompose l = l := by
  induction l with
  | nil => rfl
  | cons a tail ih =>
    cases tail with
    | nil => rfl
    | cons b rest =>
      rw [composableFree] at h
      simp at h
      obtain ⟨h1, h2⟩ := h
      have hp : composePair a b = none := by
        cases hp : composePair a b with
        | none => rfl
        | some e => rw [hp] at h1; simp at h1
      rw [canonicalCompose, composeAux, hp]
      have := ih h2
      rw [canonicalCompose] at this
      rw [this]

theorem shiftChar_idem (c : Char) : shiftChar (shiftChar c) = shiftChar c := by
  unfold shiftChar
  split
  · rename_i hr
    have hval : (c.toNat + 0x60).isValidChar := Or.inl (by omega)
    rw [if_neg]
    rw [toNat_ofNat_of_valid hval]
    omega
  · rfl

theorem to_zen_katakana_chars_idem_of_free {l : List Char}
    (h : composableFree (to_zen_katakana_chars l) = true) :
    to_zen_katakana_chars (to_zen_katakana_chars l) = to_zen_katakana_chars l := by
  have hstable : ∀ c ∈ to_zen_katakana_chars l, decompStable c := by
    intro c hc
    unfold to_zen_katakana_chars at hc
    rcases List.mem_map.mp hc with ⟨z, hz, hzc⟩
    rw [← hzc]
    exact shiftChar_stable (nfkc_stable l z hz)
  calc to_zen_katakana_chars (to_zen_katakana_chars l)
      = (canonicalCompose (decomposeAll (to_zen_katakana_chars l))).map shiftChar := rfl
    _ = (canonicalCompose (to_zen_katakana_chars l)).map shiftChar := by
        rw [decomposeAll_of_stable hstable]
    _ = (to_zen_katakana_chars l).map shiftChar := by
        rw [canonicalCompose_of_free h]
    _ = to_zen_katakana_chars l := by
        unfold to_zen_katakana_chars
        rw [List.map_map]
        exact List.map_congr_left (fun c _ => shiftChar_idem c)

/-- C8 fails as stated: on the input わ followed by the combining dakuten
U+3099 (for which no precomposed hiragana exists), normalization shifts
わ to ワ without composing, and a second normalization then canonically
composes ワ + U+3099 into the precomposed ヷ (U+30F7) — so
`normalize_to_katakana` is not idempotent. -/
theorem claim8_counterexample :
    to_zen_katakana (to_zen_katakana
        (some (String.mk [Char.ofNat 0x308F, Char.ofNat 0x3099])))
      ≠ to_zen_katakana (some (String.mk [Char.ofNat 0x308F, Char.ofNat 0x3099])) := by
  decide

/-- C8 amended: normalization is idempotent on every string whose
normalized form contains no adjacent canonically-composable pair (kana
base directly followed by a combining voicing mark U+3099/U+309A that
composes with it); the hiragana→katakana shift can create exactly such a
pair — わ/ゐ/ゑ/を followed by U+3099 — and only then does idempotence
fail. -/
theorem claim8_normalization_idempotent_amended :
    ∀ x : String, composableFree (to_zen_katakana_chars x.data) = true →
      to_zen_katakana (to_zen_katakana (some x)) = to_zen_katakana (some x) := by
  intro x h
  show some (String.mk (to_zen_katakana_chars (to_zen_katakana_chars x.data)))
      = some (String.mk (to_zen_katakana_chars x.data))
  rw [to_zen_katakana_chars_idem_of_free h]

/-- Witness for C8 (amended) on the concrete string "あカナ". -/
theorem claim8_witness :
    to_zen_katakana (to_zen_katakana (some "あカナ")) = to_zen_katakana (some "あカナ") :=
  claim8_normalization_idempotent_amended "あカナ" (by decide)
